import Mathlib

/-!
Verification development for the move-selection / engine-protocol core of the
ChessVariants repository (the `ChessAI` service).

The chess rules engine (chess.js) is an external collaborator ("Position Rules
Adapter"): it supplies the legal-move list, the side to move, the 8×8 board
contents and the board/FEN resulting from hypothetically applying a legal move.
We therefore model a position as a record bundling exactly the adapter queries
the source code performs (`moves({verbose:true})`, `turn()`, `board()`,
`new Chess(fen).move(m)` followed by `.board()` / `.fen()`).

The Stockfish engine is likewise external: the evaluator is modelled as an
oracle from (successor FEN, depth) to an optional centipawn score (`none`
models a failed/rejected evaluation), and the asynchronous message stream is
modelled as an explicit list of inbound events (lines or the firing of the
request's timeout timer).

`Math.random()` based choices are modelled by an externally supplied natural
number `rand`; the source computes `Math.floor(Math.random() * n)`, a uniform
index in `[0, n)`, which we model as `rand % n`.
-/

namespace ChessVariants

/-- Side colour, chess.js `'w' | 'b'`. -/
inductive PieceColor where
  | w
  | b
deriving DecidableEq, Repr

/-- Flip a colour, source `currentTurn === 'w' ? 'b' : 'w'`. -/
def oppColor : PieceColor → PieceColor
  | .w => .b
  | .b => .w

/-- One entry of the chess.js `board()` grid: `{type, color}`;
`type` is the lowercase piece letter, e.g. `'k'` for a king. -/
structure BoardPiece where
  type : Char
  color : PieceColor
deriving DecidableEq, Repr

/-- The chess.js `board()` value: a list of 8 rows, each a list of 8 optional
pieces. `board[rank][file]` is accessed exactly as in the source loops. -/
abbrev BoardGrid := List (List (Option BoardPiece))

/-- Row/column access `board[rank][file]`, `none` when absent. -/
def boardGet (b : BoardGrid) (rank file : Nat) : Option BoardPiece :=
  (b.getD rank []).getD file none

/-- A chess.js verbose move, restricted to the fields the source reads
(`from`, `to`, `promotion`). `from` is a Lean keyword, hence `fromSq`. -/
structure VMove where
  fromSq : String
  toSq : String
  promotion : Option String
deriving DecidableEq, Repr, Inhabited

/-- The `AIMove` interface of the source: `{from, to, promotion?}`. -/
structure AIMove where
  fromSq : String
  toSq : String
  promotion : Option String
deriving DecidableEq, Repr

/-- The projection `{from: move.from, to: move.to, promotion: move.promotion}`
performed whenever the source converts a verbose legal move to an `AIMove`. -/
def toAIMove (m : VMove) : AIMove :=
  ⟨m.fromSq, m.toSq, m.promotion⟩

/-- A position as seen through the Rules Adapter: the side to move, the legal
move list (in the adapter's enumeration order), the current board grid, and
the board grid / FEN obtained by hypothetically applying a legal move
(`new Chess(fen)` + `.move(m)` + `.board()` / `.fen()` in the source). -/
structure Pos where
  turn : PieceColor
  legalMoves : List VMove
  board : BoardGrid
  applyBoard : VMove → BoardGrid
  applyFen : VMove → String

/-- The `AILevel` union type of the source. -/
inductive AILevel where
  | easy
  | medium
  | hard
  | worstfish
  | random
  | huddle
  | swarm
  | custom
deriving DecidableEq, Repr

/-- The `AISettings` interface of the source; optional numeric fields are
`Option Nat` (centipawn scores elsewhere are signed, these are not). -/
structure AISettings where
  level : AILevel
  depth : Option Nat
  time : Option Nat
  nodes : Option Nat
  eloRating : Option Nat
  limitStrength : Option Bool
  skillLevel : Option Nat
deriving Repr

/-- `DEFAULT_SETTINGS.easy` from the source. -/
def easySettings : AISettings := ⟨.easy, none, some 500, none, some 1320, some true, some 1⟩

/-- `DEFAULT_SETTINGS.medium` from the source. -/
def mediumSettings : AISettings := ⟨.medium, none, some 1000, none, some 1800, some true, some 8⟩

/-- `DEFAULT_SETTINGS.hard` from the source. -/
def hardSettings : AISettings := ⟨.hard, none, some 2000, none, some 2400, some true, some 15⟩

/-- `DEFAULT_SETTINGS.worstfish` from the source. -/
def worstfishSettings : AISettings := ⟨.worstfish, some 8, none, none, none, none, none⟩

/-- `DEFAULT_SETTINGS.random` from the source. -/
def randomSettings : AISettings := ⟨.random, none, none, none, none, none, none⟩

/-! ### String helpers

The source uses JavaScript string primitives (`split(' ')`, `substring`,
`startsWith`, `includes`, the regex `/score cp (-?\d+)/`, `charCodeAt`,
`parseInt`).  We model them by structurally recursive functions on `List Char`
so that every concrete claim instance evaluates by `decide`. -/

/-- `p` is a prefix of `cs` (character-wise). -/
def listPre : List Char → List Char → Bool
  | [], _ => true
  | _ :: _, [] => false
  | p :: ps, c :: cs => p = c && listPre ps cs

/-- `needle` occurs as a contiguous substring of the haystack;
models JavaScript `String.prototype.includes`. -/
def hasSub (needle : List Char) : List Char → Bool
  | [] => needle.isEmpty
  | c :: cs => listPre needle (c :: cs) || hasSub needle cs

/-- JavaScript `str.split(' ')`: split on every single space, keeping empty
fragments (so `"".split(' ')` is `[""]`). -/
def splitSpaceAux : List Char → List Char → List (List Char)
  | [], acc => [acc.reverse]
  | c :: rest, acc =>
    if c = ' ' then acc.reverse :: splitSpaceAux rest []
    else splitSpaceAux rest (c :: acc)

/-- JavaScript `message.split(' ')` on a `String`. -/
def jsSplitSpace (s : String) : List String :=
  (splitSpaceAux s.toList []).map List.asString

/-- Leading decimal-digit run parsed as a `Nat`; `none` when there is no
leading digit (the regex group `\d+` needs at least one). -/
def leadDigits (cs : List Char) : Option Nat :=
  let ds := cs.takeWhile (fun c => c.isDigit)
  if ds.isEmpty then none
  else some (ds.foldl (fun a c => a * 10 + (c.toNat - 48)) 0)

/-- Parse `-?\d+` at the head of the character list, as JavaScript
`parseInt` does on the regex capture. -/
def signedLeadInt : List Char → Option Int
  | '-' :: rest => (leadDigits rest).map (fun n => -(n : Int))
  | cs => (leadDigits cs).map (fun n => (n : Int))

/-- The literal characters of `"score cp "` (the fixed part of the regex
`/score cp (-?\d+)/`, 9 characters). -/
def scoreCpTok : List Char := "score cp ".toList

/-- Search semantics of the regex `/score cp (-?\d+)/`: at each start offset,
try to match the literal `"score cp "` followed by a signed digit run; the
first full match wins, otherwise the scan advances one character. -/
def findScoreCp : List Char → Option Int
  | [] => none
  | c :: rest =>
    if listPre scoreCpTok (c :: rest) then
      match signedLeadInt ((c :: rest).drop 9) with
      | some v => some v
      | none => findScoreCp rest
    else
      findScoreCp rest

/-- JavaScript `message.startsWith(p)`. -/
def jsStartsWith (p : String) (message : String) : Bool :=
  listPre p.toList message.toList

/-- JavaScript `message.includes(p)`. -/
def jsIncludes (p : String) (message : String) : Bool :=
  hasSub p.toList message.toList

/-! ### Parsing a `bestmove` reply (source `getBestMove`, message handler) -/

/-- The slicing of one move token, source lines 191–202: reject an absent
(empty) token or the literal `(none)`; otherwise chars 0–1 are the from
square, chars 2–3 the to square, and any remainder the promotion piece
(JavaScript `substring(0,2)`, `substring(2,4)`, `substring(4)`). -/
def parseMoveString (moveString : String) : Option AIMove :=
  if moveString = "" || moveString = "(none)" then none
  else
    let cs := moveString.toList
    let fromSq := (cs.take 2).asString
    let toSq := ((cs.drop 2).take 2).asString
    let promo := if cs.length > 4 then some ((cs.drop 4).asString) else none
    some ⟨fromSq, toSq, promo⟩

/-- Full handler parse of a `bestmove` line: `parts = message.split(' ')`,
`moveString = parts[1]` (JavaScript `undefined`, which is falsy like the empty
string, is modelled by the `""` default). -/
def parseBestmoveLine (message : String) : Option AIMove :=
  parseMoveString ((jsSplitSpace message).getD 1 "")

/-! ### Engine command sequence (source `getBestMove`, lines 224–255) -/

/-- JavaScript truthiness of `settings.limitStrength` (an optional boolean). -/
def truthyBool (o : Option Bool) : Bool := o.getD false

/-- JavaScript truthiness of an optional number: defined and nonzero. -/
def truthyNat (o : Option Nat) : Bool := o.getD 0 != 0

/-- The `go` search command built at source lines 241–252: a `movetime`
modifier when a time is set (preferred), else a `depth` modifier when a depth
is set; a `nodes` modifier is appended independently. -/
def goCommand (s : AISettings) : String :=
  let base := "go"
  let base :=
    match s.time with
    | some t => base ++ " movetime " ++ toString t
    | none =>
      match s.depth with
      | some d => base ++ " depth " ++ toString d
      | none => base
  match s.nodes with
  | some n => base ++ " nodes " ++ toString n
  | none => base

/-- The full ordered command sequence posted to the engine worker by the
engine-backed search (source lines 224–255): strength configuration
(`settings.limitStrength && settings.eloRating`, JavaScript truthiness),
skill level when defined, the position, then the `go` command. -/
def searchCommands (fen : String) (s : AISettings) : List String :=
  (if truthyBool s.limitStrength && truthyNat s.eloRating then
    ["setoption name UCI_LimitStrength value true",
     "setoption name UCI_Elo value " ++ toString (s.eloRating.getD 0)]
  else
    ["setoption name UCI_LimitStrength value false"])
  ++ (match s.skillLevel with
      | some n => ["setoption name Skill Level value " ++ toString n]
      | none => [])
  ++ ["position fen " ++ fen]
  ++ [goCommand s]

/-! ### Position evaluation handler (source `evaluatePosition`, lines 348–377) -/

/-- What the evaluation message handler does with one inbound line. -/
inductive EvalAction where
  | resolveScore (s : Int)
  | resolveDefault
  | ignore
deriving DecidableEq, Repr

/-- The per-line decision of the evaluation handler (source lines 348–377,
before the `resolved` flag is set): an `info` line containing `'score cp'`
whose regex capture parses resolves with the captured score *iff* the line
also contains the substring `depth <target>`; otherwise it is ignored. A
`bestmove` line resolves with the default score `0`. -/
def evalInfoStep (depth : Nat) (message : String) : EvalAction :=
  if jsStartsWith "info" message && jsIncludes "score cp" message then
    match findScoreCp message.toList with
    | some score =>
      if jsIncludes ("depth " ++ toString depth) message then .resolveScore score
      else .ignore
    | none => .ignore
  else if jsStartsWith "bestmove" message then .resolveDefault
  else .ignore

/-- Modelled from the spec: the depth an `info` line *reports* is the integer
token immediately following the standalone word `depth` in the
space-separated line (the engine protocol's `info ... depth <d> ...` field).
Used only to state what the spec asserts about depth matching. -/
def reportedDepthAux : List String → Option Nat
  | [] => none
  | w :: rest =>
    if w = "depth" then leadDigits (rest.headD "").toList
    else reportedDepthAux rest

/-- Modelled from the spec: see `reportedDepthAux`. -/
def reportedDepth (message : String) : Option Nat :=
  reportedDepthAux (jsSplitSpace message)

/-! ### Request/timeout event machines (source promise handlers)

Real time is modelled by an explicit `timeout` event standing for the firing
of the request's `setTimeout` timer; inbound engine lines are `msg` events,
delivered in order.  A machine returns `none` while unresolved, and
`some (value, handlerRemoved)` once the promise settles. -/

/-- One event observed by a pending request. -/
inductive EngineEvent where
  | msg (line : String)
  | timeout
deriving Repr

/-- The delay, in milliseconds, after which the search timeout fires
(source line 222). -/
def searchTimeoutMs : Nat := 5000

/-- The delay, in milliseconds, after which the evaluation timeout fires
(source line 392). -/
def evalTimeoutMs : Nat := 3000

/-- Resolution of one search request (source lines 169–256): the first
`bestmove` line resolves with its parse and removes the handler; the timeout
event resolves with `none` (no move) and removes the handler. -/
def runSearchEvents : List EngineEvent → Option (Option AIMove × Bool)
  | [] => none
  | .msg line :: rest =>
    if jsStartsWith "bestmove" line then some (parseBestmoveLine line, true)
    else runSearchEvents rest
  | .timeout :: _ => some (none, true)

/-- Outcome of one evaluation request: a centipawn score, or the rejection
raised by the timeout (`new Error('Position evaluation timed out')`). -/
inductive EvalOutcome where
  | score (s : Int)
  | timedOut
deriving DecidableEq, Repr

/-- Resolution of one evaluation request (source lines 345–397): lines are
inspected by `evalInfoStep`; a resolving line removes the handler and settles
the promise; the timeout event rejects and removes the handler. -/
def runEvalEvents (depth : Nat) : List EngineEvent → Option (EvalOutcome × Bool)
  | [] => none
  | .msg line :: rest =>
    match evalInfoStep depth line with
    | .resolveScore s => some (.score s, true)
    | .resolveDefault => some (.score 0, true)
    | .ignore => runEvalEvents depth rest
  | .timeout :: _ => some (.timedOut, true)

/-! ### Geometric helpers shared by Huddle and Swarm -/

/-- Square name built by the source: `String.fromCharCode(97 + file) +
(rank + 1).toString()` (note `rank` is the `board()` row index). -/
def squareName (file rank : Nat) : String :=
  (Char.ofNat (97 + file)).toString ++ toString (rank + 1)

/-- The source's `getChebyshevDistance`: decode the square name back to
numeric file/rank (`charCodeAt(0) - 97`, `parseInt(square[1]) - 1`) and take
the maximum of the absolute file and rank differences. -/
def chebyshevDistance (square : String) (target : Nat × Nat) : Int :=
  let squareFile : Int := ((square.toList.getD 0 ' ').toNat : Int) - 97
  let squareRank : Int := ((square.toList.getD 1 ' ').toNat : Int) - 48 - 1
  let fileDiff := (squareFile - (target.1 : Int)).natAbs
  let rankDiff := (squareRank - (target.2 : Int)).natAbs
  ((max fileDiff rankDiff : Nat) : Int)

/-- The source's king scan inner loop over files `0..7` of one row. -/
def findKingInRow (b : BoardGrid) (c : PieceColor) (rank : Nat) :
    List Nat → Option (Nat × Nat)
  | [] => none
  | f :: fs =>
    match boardGet b rank f with
    | some p =>
      if p.type = 'k' && p.color = c then some (f, rank)
      else findKingInRow b c rank fs
    | none => findKingInRow b c rank fs

/-- The source's king scan outer loop over ranks `0..7` (with `break` on the
first hit, i.e. first match in row-major order); the result is the
`{file, rank}` pair stored by the source. -/
def findKingRows (b : BoardGrid) (c : PieceColor) : List Nat → Option (Nat × Nat)
  | [] => none
  | r :: rs =>
    match findKingInRow b c r (List.range 8) with
    | some pos => some pos
    | none => findKingRows b c rs

/-- Locate the first king of colour `c` on the grid, row-major, as the
source's nested scan does. -/
def findKing (b : BoardGrid) (c : PieceColor) : Option (Nat × Nat) :=
  findKingRows b c (List.range 8)

/-- The source's `getTotalDistance...` helpers: sum, over every piece of
colour `c` on the grid, the Chebyshev distance from its (reconstructed)
square name to the target `{file, rank}`. -/
def totalDistanceToTarget (b : BoardGrid) (c : PieceColor) (target : Nat × Nat) : Int :=
  ((List.range 8).map (fun rank =>
    ((List.range 8).map (fun file =>
      match boardGet b rank file with
      | some p =>
        if p.color = c then chebyshevDistance (squareName file rank) target else 0
      | none => 0)).foldl (· + ·) 0)).foldl (· + ·) 0

/-! ### Selection loops

Both Huddle/Swarm and the worst-move loop keep a best-so-far with an initial
score of `Infinity` and replace it on strict `<`.  `Option Int` models the
score register, `none` standing for JavaScript `Infinity`. -/

/-- `score < register` with `none` as `Infinity`. -/
def scoreLt (s : Int) : Option Int → Bool
  | none => true
  | some w => decide (s < w)

/-- The Huddle/Swarm loop (source lines 485–500 and 578–593): start from
`bestMove = legalMoves[0]`, `bestTotalDistance = Infinity`, and take each
candidate whose score is strictly below the register. -/
def selectLoop (f : VMove → Int) : List VMove → VMove → Option Int → VMove
  | [], best, _ => best
  | m :: rest, best, bestD =>
    if scoreLt (f m) bestD then selectLoop f rest m (some (f m))
    else selectLoop f rest best bestD

/-! ### The four heuristic selectors -/

/-- Source `getRandomMove` (lines 400–416): `null` on an empty legal-move
list, else the legal move at the uniformly random index
`Math.floor(Math.random() * legalMoves.length)`, modelled as
`rand % legalMoves.length`. -/
def getRandomMove (pos : Pos) (rand : Nat) : Option AIMove :=
  if pos.legalMoves.length = 0 then none
  else some (toAIMove (pos.legalMoves.getD (rand % pos.legalMoves.length) default))

/-- The Huddle per-candidate score: total Chebyshev distance of the mover's
pieces, on the board obtained by applying the candidate, to the `{file,rank}`
target `kp` (the mover's king as located on the *pre-move* board). -/
def huddleSum (pos : Pos) (kp : Nat × Nat) (m : VMove) : Int :=
  totalDistanceToTarget (pos.applyBoard m) pos.turn kp

/-- Source `getHuddleMove` (lines 418–507): `null` on an empty list; locate
the mover's own king once on the current board (falling back to a random
legal move when absent); then pick, by strict-`<` minimisation seeded with
`legalMoves[0]` and `Infinity`, the move minimising `huddleSum`. -/
def getHuddleMove (pos : Pos) (rand : Nat) : Option AIMove :=
  match pos.legalMoves with
  | [] => none
  | m0 :: _ =>
    match findKing pos.board pos.turn with
    | none =>
      some (toAIMove (pos.legalMoves.getD (rand % pos.legalMoves.length) default))
    | some kp =>
      some (toAIMove (selectLoop (huddleSum pos kp) pos.legalMoves m0 none))

/-- The Swarm per-candidate score: total Chebyshev distance of the mover's
pieces, post-move, to the opponent-king target `kp` (located once on the
pre-move board). -/
def swarmSum (pos : Pos) (kp : Nat × Nat) (m : VMove) : Int :=
  totalDistanceToTarget (pos.applyBoard m) pos.turn kp

/-- Source `getSwarmMove` (lines 509–600): as Huddle, but the fixed target is
the *opponent's* king located on the pre-move board. -/
def getSwarmMove (pos : Pos) (rand : Nat) : Option AIMove :=
  match pos.legalMoves with
  | [] => none
  | m0 :: _ =>
    match findKing pos.board (oppColor pos.turn) with
    | none =>
      some (toAIMove (pos.legalMoves.getD (rand % pos.legalMoves.length) default))
    | some kp =>
      some (toAIMove (selectLoop (swarmSum pos kp) pos.legalMoves m0 none))

/-! ### Worst-move selection (source `getWorstMove`, lines 274–338) -/

/-- The mutable state of the worst-move loop: `worstMove`/`worstScore`
(`none` = `null`/`Infinity`) plus an instrumentation counter of evaluator
invocations (the source calls `evaluatePosition` exactly once per
iteration, inside the `try`). -/
structure WorstState where
  worstMove : Option AIMove
  worstScore : Option Int
  calls : Nat
deriving Repr

/-- The worst-move loop body (source lines 301–325): evaluate the successor
of each candidate; on success compare with strict `<` against the register;
on failure (`g m = none`, a thrown/rejected evaluation) skip the candidate. -/
def worstLoop (g : VMove → Option Int) : List VMove → WorstState → WorstState
  | [], st => st
  | m :: rest, st =>
    match g m with
    | none => worstLoop g rest ⟨st.worstMove, st.worstScore, st.calls + 1⟩
    | some score =>
      if scoreLt score st.worstScore then
        worstLoop g rest ⟨some (toAIMove m), some score, st.calls + 1⟩
      else
        worstLoop g rest ⟨st.worstMove, st.worstScore, st.calls + 1⟩

/-- Source `getWorstMove`, instrumented with the number of evaluator calls:
`null` on an empty list; the single move, unevaluated, when exactly one legal
move exists; otherwise run the loop with the oracle
`evaluatePosition(successor-FEN, settings.depth || 8)` and, when no candidate
evaluated successfully, fall back to a random legal move. -/
def getWorstMoveC (pos : Pos) (settings : AISettings)
    (oracle : String → Nat → Option Int) (rand : Nat) : Option AIMove × Nat :=
  if pos.legalMoves.length = 0 then (none, 0)
  else if pos.legalMoves.length = 1 then
    (some (toAIMove (pos.legalMoves.headD default)), 0)
  else
    let g : VMove → Option Int :=
      fun m => oracle (pos.applyFen m) (settings.depth.getD 8)
    let st := worstLoop g pos.legalMoves ⟨none, none, 0⟩
    match st.worstMove with
    | some mv => (some mv, st.calls)
    | none =>
      (some (toAIMove (pos.legalMoves.getD (rand % pos.legalMoves.length) default)),
       st.calls)

/-- Source `getWorstMove`'s returned value (without the instrumentation). -/
def getWorstMove (pos : Pos) (settings : AISettings)
    (oracle : String → Nat → Option Int) (rand : Nat) : Option AIMove :=
  (getWorstMoveC pos settings oracle rand).1

/-! ### The move dispatcher (source `getBestMove`, lines 108–272)

The dispatcher branches on `settings.level`; the four heuristic levels never
touch the engine (no commands are sent), the remaining levels run the full
engine-backed search.  The result is the pair (resolution, commands sent to
the engine); the outer `Option` is the promise resolution (`none` would mean
the search promise never settled, which the source's own timeout prevents).
The minimum "thinking-time" delays (pure pacing) do not change the returned
value and are not modelled. -/
def getBestMoveModel (fen : String) (pos : Pos) (settings : AISettings)
    (oracle : String → Nat → Option Int) (rand : Nat)
    (events : List EngineEvent) : Option (Option AIMove) × List String :=
  match settings.level with
  | .worstfish => (some (getWorstMoveC pos settings oracle rand).1, [])
  | .random => (some (getRandomMove pos rand), [])
  | .huddle => (some (getHuddleMove pos rand), [])
  | .swarm => (some (getSwarmMove pos rand), [])
  | _ => ((runSearchEvents events).map (fun r => r.1), searchCommands fen settings)

/-! ### Spec-side reference definitions

These follow the *spec's words* (not the source) and exist only to be compared
with the source-derived definitions above. -/

/-- Modelled from the spec (claim C2's reading of Huddle): the sum, over every
piece still belonging to the mover after hypothetically applying the move, of
the Chebyshev distance from that piece's square to the mover's own king
square *in the post-move position* (so a king move measures to the king's
new square). -/
def specHuddleSum (pos : Pos) (m : VMove) : Int :=
  match findKing (pos.applyBoard m) pos.turn with
  | some kp => totalDistanceToTarget (pos.applyBoard m) pos.turn kp
  | none => 0

/-- Modelled from the claim's words (C3, literal reading): strength
configuration keyed on the limit-strength flag being set and a target rating
being *present* (merely defined), rating value included as-is; the rest as
described by the claim. -/
def claimSearchCommands (fen : String) (s : AISettings) : List String :=
  (match s.limitStrength, s.eloRating with
   | some true, some r =>
     ["setoption name UCI_LimitStrength value true",
      "setoption name UCI_Elo value " ++ toString r]
   | _, _ => ["setoption name UCI_LimitStrength value false"])
  ++ (match s.skillLevel with
      | some n => ["setoption name Skill Level value " ++ toString n]
      | none => [])
  ++ ["position fen " ++ fen]
  ++ (match s.nodes with
      | some n =>
        [(match s.time with
          | some t => "go movetime " ++ toString t
          | none =>
            match s.depth with
            | some d => "go depth " ++ toString d
            | none => "go") ++ " nodes " ++ toString n]
      | none =>
        [match s.time with
         | some t => "go movetime " ++ toString t
         | none =>
           match s.depth with
           | some d => "go depth " ++ toString d
           | none => "go"])

/-- Modelled from the amended claim (C3): as `claimSearchCommands`, except the
strength branch additionally requires the target rating to be *nonzero*
(JavaScript truthiness of `settings.eloRating`). -/
def amendedSearchCommands (fen : String) (s : AISettings) : List String :=
  (match s.limitStrength, s.eloRating with
   | some true, some (r + 1) =>
     ["setoption name UCI_LimitStrength value true",
      "setoption name UCI_Elo value " ++ toString (r + 1)]
   | _, _ => ["setoption name UCI_LimitStrength value false"])
  ++ (match s.skillLevel with
      | some n => ["setoption name Skill Level value " ++ toString n]
      | none => [])
  ++ ["position fen " ++ fen]
  ++ (match s.nodes with
      | some n =>
        [(match s.time with
          | some t => "go movetime " ++ toString t
          | none =>
            match s.depth with
            | some d => "go depth " ++ toString d
            | none => "go") ++ " nodes " ++ toString n]
      | none =>
        [match s.time with
         | some t => "go movetime " ++ toString t
         | none =>
           match s.depth with
           | some d => "go depth " ++ toString d
           | none => "go"])

/-! ### Concrete positions used as witnesses / counterexamples

Rows follow chess.js `board()` layout: row index `i` holds rank `8 - i`
(row 0 = rank 8 down to row 7 = rank 1). -/

/-- Build an 8×8 grid from a list of `(row, col, piece)` triples. -/
def gridOf (ps : List (Nat × Nat × BoardPiece)) : BoardGrid :=
  (List.range 8).map (fun r =>
    (List.range 8).map (fun f =>
      ((ps.find? (fun e => e.1 = r && e.2.1 = f)).map (fun e => e.2.2))))

/-- White king `{type:'k', color:'w'}`. -/
def wK : BoardPiece := ⟨'k', .w⟩

/-- White pawn `{type:'p', color:'w'}`. -/
def wP : BoardPiece := ⟨'p', .w⟩

/-- Black king `{type:'k', color:'b'}`. -/
def bK : BoardPiece := ⟨'k', .b⟩

/-- The pawn push a4–a5 of the counterexample position. -/
def cxA5 : VMove := ⟨"a4", "a5", none⟩

/-- The king step g2–f3 of the counterexample position. -/
def cxF3 : VMove := ⟨"g2", "f3", none⟩

/-- Legal moves of FEN `8/6k1/8/8/P7/8/6K1/8 w - - 0 1` in chess.js
enumeration order (squares scanned a8→h1; king offsets
`-17,-16,-15,1,17,16,15,-1`). -/
def cxMoves : List VMove :=
  [cxA5, cxF3, ⟨"g2", "g3", none⟩, ⟨"g2", "h3", none⟩, ⟨"g2", "h2", none⟩,
   ⟨"g2", "h1", none⟩, ⟨"g2", "g1", none⟩, ⟨"g2", "f2", none⟩]

/-- Board of FEN `8/6k1/8/8/P7/8/6K1/8`: black Kg7 (row 1), white Pa4
(row 4), white Kg2 (row 6). -/
def cxBoard : BoardGrid := gridOf [(1, 6, bK), (4, 0, wP), (6, 6, wK)]

/-- Post-move boards of the counterexample position, one per legal move. -/
def cxApply (m : VMove) : BoardGrid :=
  if m = cxA5 then gridOf [(1, 6, bK), (3, 0, wP), (6, 6, wK)]
  else if m = cxF3 then gridOf [(1, 6, bK), (4, 0, wP), (5, 5, wK)]
  else if m = ⟨"g2", "g3", none⟩ then gridOf [(1, 6, bK), (4, 0, wP), (5, 6, wK)]
  else if m = ⟨"g2", "h3", none⟩ then gridOf [(1, 6, bK), (4, 0, wP), (5, 7, wK)]
  else if m = ⟨"g2", "h2", none⟩ then gridOf [(1, 6, bK), (4, 0, wP), (6, 7, wK)]
  else if m = ⟨"g2", "h1", none⟩ then gridOf [(1, 6, bK), (4, 0, wP), (7, 7, wK)]
  else if m = ⟨"g2", "g1", none⟩ then gridOf [(1, 6, bK), (4, 0, wP), (7, 6, wK)]
  else if m = ⟨"g2", "f2", none⟩ then gridOf [(1, 6, bK), (4, 0, wP), (6, 5, wK)]
  else cxBoard

/-- The counterexample position: white to move in
`8/6k1/8/8/P7/8/6K1/8 w - - 0 1`. -/
def cxPos : Pos :=
  ⟨.w, cxMoves, cxBoard, cxApply, fun _ => ""⟩

/-- A terminal position: no legal moves (used for dispatcher claims). -/
def emptyPos : Pos :=
  ⟨.w, [], gridOf [(0, 6, bK), (2, 6, wK)], fun _ => gridOf [], fun _ => ""⟩

/-- A position with exactly one legal move. -/
def onePos : Pos :=
  ⟨.w, [⟨"e2", "e4", none⟩],
   gridOf [(1, 6, bK), (6, 4, wP), (6, 6, wK)],
   fun _ => gridOf [(1, 6, bK), (4, 4, wP), (6, 6, wK)],
   fun _ => "onefen"⟩

/-- A two-move position for exercising the worst-move loop; the successor
FENs are just distinct tags consumed by a concrete oracle. -/
def twoPos : Pos :=
  ⟨.w, [⟨"a1", "a2", none⟩, ⟨"b1", "b2", none⟩],
   gridOf [(0, 6, bK), (7, 0, wK)],
   fun _ => gridOf [],
   fun m => m.toSq⟩

/-- A concrete evaluation oracle for `twoPos`: the successor after `a1a2`
scores 5 centipawns, the one after `b1b2` scores 3. -/
def twoOracle : String → Nat → Option Int :=
  fun fen _ => if fen = "a2" then some 5 else some 3

/-- An oracle on which every evaluation fails. -/
def noOracle : String → Nat → Option Int := fun _ _ => none

/-! ### Loop lemmas -/

theorem worstLoop_calls (g : VMove → Option Int) (ms : List VMove) (st : WorstState) :
    (worstLoop g ms st).calls = st.calls + ms.length := by
  induction ms generalizing st with
  | nil => simp [worstLoop]
  | cons m rest ih =>
    cases hg : g m with
    | none =>
      have hstep : worstLoop g (m :: rest) st =
          worstLoop g rest ⟨st.worstMove, st.worstScore, st.calls + 1⟩ := by
        simp [worstLoop, hg]
      rw [hstep, ih]
      simp
      omega
    | some s =>
      by_cases hc : scoreLt s st.worstScore = true
      · have hstep : worstLoop g (m :: rest) st =
            worstLoop g rest ⟨some (toAIMove m), some s, st.calls + 1⟩ := by
          simp [worstLoop, hg, hc]
        rw [hstep, ih]
        simp
        omega
      · have hstep : worstLoop g (m :: rest) st =
            worstLoop g rest ⟨st.worstMove, st.worstScore, st.calls + 1⟩ := by
          simp [worstLoop, hg, hc]
        rw [hstep, ih]
        simp
        omega

theorem scoreLt_none (s : Int) : scoreLt s none = true := rfl

theorem scoreLt_some_true {s w : Int} (h : scoreLt s (some w) = true) : s < w := by
  simpa [scoreLt] using h

theorem scoreLt_some_false {s w : Int} (h : scoreLt s (some w) = false) : w ≤ s := by
  simpa [scoreLt] using h

/-- Provenance of the worst-move loop: either nothing beat the incoming
register (fields unchanged), or the loop ends on the first candidate
attaining the minimum successful score that beats the incoming register. -/
theorem worstLoop_spec (g : VMove → Option Int) (ms : List VMove) (st : WorstState) :
    ((worstLoop g ms st).worstMove = st.worstMove ∧
     (worstLoop g ms st).worstScore = st.worstScore ∧
     ∀ m ∈ ms, ∀ s, g m = some s → scoreLt s st.worstScore = false)
    ∨ (∃ l₁ m l₂ s₀, ms = l₁ ++ m :: l₂ ∧ g m = some s₀ ∧
        scoreLt s₀ st.worstScore = true ∧
        (worstLoop g ms st).worstMove = some (toAIMove m) ∧
        (worstLoop g ms st).worstScore = some s₀ ∧
        (∀ m' ∈ l₁, ∀ s', g m' = some s' → s₀ < s') ∧
        (∀ m' ∈ ms, ∀ s', g m' = some s' → s₀ ≤ s')) := by
  induction ms generalizing st with
  | nil =>
    left
    exact ⟨rfl, rfl, by simp⟩
  | cons m rest ih =>
    cases hg : g m with
    | none =>
      have hstep : worstLoop g (m :: rest) st =
          worstLoop g rest ⟨st.worstMove, st.worstScore, st.calls + 1⟩ := by
        simp [worstLoop, hg]
      rcases ih ⟨st.worstMove, st.worstScore, st.calls + 1⟩ with
        ⟨h1, h2, h3⟩ | ⟨l₁, mm, l₂, s₀, heq, hgm, hlt, hwm, hws, hearl, hglob⟩
      · left
        refine ⟨by rw [hstep]; exact h1, by rw [hstep]; exact h2, ?_⟩
        intro x hx s hs
        rcases List.mem_cons.mp hx with rfl | hx'
        · rw [hs] at hg; cases hg
        · exact h3 x hx' s hs
      · right
        refine ⟨m :: l₁, mm, l₂, s₀, by rw [List.cons_append, ← heq], hgm, hlt,
          by rw [hstep]; exact hwm, by rw [hstep]; exact hws, ?_, ?_⟩
        · intro x hx s' hs'
          rcases List.mem_cons.mp hx with rfl | hx'
          · rw [hs'] at hg; cases hg
          · exact hearl x hx' s' hs'
        · intro x hx s' hs'
          rcases List.mem_cons.mp hx with rfl | hx'
          · rw [hs'] at hg; cases hg
          · exact hglob x (heq ▸ hx') s' hs'
    | some s =>
      by_cases hc : scoreLt s st.worstScore = true
      · have hstep : worstLoop g (m :: rest) st =
            worstLoop g rest ⟨some (toAIMove m), some s, st.calls + 1⟩ := by
          simp [worstLoop, hg, hc]
        rcases ih ⟨some (toAIMove m), some s, st.calls + 1⟩ with
          ⟨h1, h2, h3⟩ | ⟨l₁, mm, l₂, s₀, heq, hgm, hlt, hwm, hws, hearl, hglob⟩
        · right
          refine ⟨[], m, rest, s, by simp, hg, hc,
            by rw [hstep]; exact h1, by rw [hstep]; exact h2, by simp, ?_⟩
          intro x hx s' hs'
          rcases List.mem_cons.mp hx with rfl | hx'
          · rw [hg] at hs'
            injection hs' with h
            omega
          · exact (scoreLt_some_false (h3 x hx' s' hs'))
        · right
          have hs₀s : s₀ < s := scoreLt_some_true hlt
          refine ⟨m :: l₁, mm, l₂, s₀, by rw [List.cons_append, ← heq], hgm, ?_,
            by rw [hstep]; exact hwm, by rw [hstep]; exact hws, ?_, ?_⟩
          · cases hws' : st.worstScore with
            | none => rfl
            | some w =>
              rw [hws'] at hc
              have := scoreLt_some_true hc
              simp [scoreLt]
              omega
          · intro x hx s' hs'
            rcases List.mem_cons.mp hx with rfl | hx'
            · rw [hg] at hs'
              injection hs' with h
              omega
            · exact hearl x hx' s' hs'
          · intro x hx s' hs'
            rcases List.mem_cons.mp hx with rfl | hx'
            · rw [hg] at hs'
              injection hs' with h
              omega
            · exact hglob x (heq ▸ hx') s' hs'
      · have hcf : scoreLt s st.worstScore = false := by
          cases h : scoreLt s st.worstScore
          · rfl
          · exact absurd h hc
        have hstep : worstLoop g (m :: rest) st =
            worstLoop g rest ⟨st.worstMove, st.worstScore, st.calls + 1⟩ := by
          simp [worstLoop, hg, hcf]
        rcases ih ⟨st.worstMove, st.worstScore, st.calls + 1⟩ with
          ⟨h1, h2, h3⟩ | ⟨l₁, mm, l₂, s₀, heq, hgm, hlt, hwm, hws, hearl, hglob⟩
        · left
          refine ⟨by rw [hstep]; exact h1, by rw [hstep]; exact h2, ?_⟩
          intro x hx s' hs'
          rcases List.mem_cons.mp hx with rfl | hx'
          · rw [hg] at hs'
            injection hs' with h
            rw [← h]
            exact hcf
          · exact h3 x hx' s' hs'
        · right
          have hle : s₀ < s := by
            cases hws' : st.worstScore with
            | none => rw [hws'] at hcf; cases hcf
            | some w =>
              rw [hws'] at hcf hlt
              have h1 := scoreLt_some_true hlt
              have h2 := scoreLt_some_false hcf
              omega
          refine ⟨m :: l₁, mm, l₂, s₀, by rw [List.cons_append, ← heq], hgm, hlt,
            by rw [hstep]; exact hwm, by rw [hstep]; exact hws, ?_, ?_⟩
          · intro x hx s' hs'
            rcases List.mem_cons.mp hx with rfl | hx'
            · rw [hg] at hs'
              injection hs' with h
              omega
            · exact hearl x hx' s' hs'
          · intro x hx s' hs'
            rcases List.mem_cons.mp hx with rfl | hx'
            · rw [hg] at hs'
              injection hs' with h
              omega
            · exact hglob x (heq ▸ hx') s' hs'

/-- Provenance of the Huddle/Swarm loop: either nothing beat the incoming
register (the incoming `best` survives), or the loop ends on the first
candidate attaining the minimum score that beats the incoming register. -/
theorem selectLoop_spec (f : VMove → Int) (ms : List VMove) (best : VMove)
    (bestD : Option Int) :
    (selectLoop f ms best bestD = best ∧ ∀ m ∈ ms, scoreLt (f m) bestD = false)
    ∨ (∃ l₁ m l₂, ms = l₁ ++ m :: l₂ ∧ selectLoop f ms best bestD = m ∧
        scoreLt (f m) bestD = true ∧
        (∀ m' ∈ l₁, f m < f m') ∧ (∀ m' ∈ ms, f m ≤ f m')) := by
  induction ms generalizing best bestD with
  | nil =>
    left
    exact ⟨rfl, by simp⟩
  | cons m rest ih =>
    by_cases hc : scoreLt (f m) bestD = true
    · have hstep : selectLoop f (m :: rest) best bestD =
          selectLoop f rest m (some (f m)) := by
        simp [selectLoop, hc]
      rcases ih m (some (f m)) with
        ⟨h1, h2⟩ | ⟨l₁, mm, l₂, heq, hres, hlt, hearl, hglob⟩
      · right
        refine ⟨[], m, rest, by simp, by rw [hstep]; exact h1, hc, by simp, ?_⟩
        intro x hx
        rcases List.mem_cons.mp hx with rfl | hx'
        · omega
        · exact scoreLt_some_false (h2 x hx')
      · right
        have hmm : f mm < f m := scoreLt_some_true hlt
        refine ⟨m :: l₁, mm, l₂, by rw [List.cons_append, ← heq],
          by rw [hstep]; exact hres, ?_, ?_, ?_⟩
        · cases hbd : bestD with
          | none => rfl
          | some w =>
            rw [hbd] at hc
            have := scoreLt_some_true hc
            simp [scoreLt]
            omega
        · intro x hx
          rcases List.mem_cons.mp hx with rfl | hx'
          · exact hmm
          · exact hearl x hx'
        · intro x hx
          rcases List.mem_cons.mp hx with rfl | hx'
          · omega
          · exact hglob x (heq ▸ hx')
    · have hcf : scoreLt (f m) bestD = false := by
        cases h : scoreLt (f m) bestD
        · rfl
        · exact absurd h hc
      have hstep : selectLoop f (m :: rest) best bestD =
          selectLoop f rest best bestD := by
        simp [selectLoop, hcf]
      rcases ih best bestD with
        ⟨h1, h2⟩ | ⟨l₁, mm, l₂, heq, hres, hlt, hearl, hglob⟩
      · left
        refine ⟨by rw [hstep]; exact h1, ?_⟩
        intro x hx
        rcases List.mem_cons.mp hx with rfl | hx'
        · exact hcf
        · exact h2 x hx'
      · right
        have hmm : f mm < f m := by
          cases hbd : bestD with
          | none => rw [hbd] at hcf; cases hcf
          | some w =>
            rw [hbd] at hcf hlt
            have h1 := scoreLt_some_true hlt
            have h2 := scoreLt_some_false hcf
            omega
        refine ⟨m :: l₁, mm, l₂, by rw [List.cons_append, ← heq],
          by rw [hstep]; exact hres, hlt, ?_, ?_⟩
        · intro x hx
          rcases List.mem_cons.mp hx with rfl | hx'
          · exact hmm
          · exact hearl x hx'
        · intro x hx
          rcases List.mem_cons.mp hx with rfl | hx'
          · omega
          · exact hglob x (heq ▸ hx')

/-- Membership of an in-bounds `getD` access. -/
theorem getD_mem_of_lt (l : List VMove) (n : Nat) (d : VMove) (h : n < l.length) :
    l.getD n d ∈ l := by
  induction l generalizing n with
  | nil => simp at h
  | cons a rest ih =>
    cases n with
    | zero => simp [List.getD]
    | succ k =>
      have hk : k < rest.length := by simpa using h
      simp only [List.getD_cons_succ]
      exact List.mem_cons_of_mem a (ih k hk)

/-- The random index is always in bounds on a non-empty list. -/
theorem rand_index_lt (len rand : Nat) (h : len ≠ 0) : rand % len < len :=
  Nat.mod_lt _ (Nat.pos_of_ne_zero h)

/-- `getD_mem_of_lt` in the `getElem?` normal form produced by `simp`. -/
theorem getElemD_mem (l : List VMove) (n : Nat) (d : VMove) (h : n < l.length) :
    l[n]?.getD d ∈ l := by
  rw [← List.getD_eq_getElem?_getD]
  exact getD_mem_of_lt l n d h

/-! ### Claim theorems -/

/-- C1: for every position with at least 2 legal moves and every settings
profile, the worst-move selector invokes the position evaluator exactly once
per legal move (hence at most `N` times), and whenever any candidate's
evaluation succeeds, the returned move is the *first* legal move (in
enumeration order) attaining the minimum successfully-evaluated score: its
score is ≤ every successfully evaluated candidate's score, and every earlier
candidate that evaluated successfully scored strictly higher (strict-`<`
tracking). -/
theorem claim1_worst_move_minimality (pos : Pos) (settings : AISettings)
    (oracle : String → Nat → Option Int) (rand : Nat)
    (hN : 2 ≤ pos.legalMoves.length) :
    (getWorstMoveC pos settings oracle rand).2 = pos.legalMoves.length ∧
    ∀ m ∈ pos.legalMoves, ∀ s,
      oracle (pos.applyFen m) (settings.depth.getD 8) = some s →
      ∃ l₁ m₀ l₂ s₀, pos.legalMoves = l₁ ++ m₀ :: l₂ ∧
        oracle (pos.applyFen m₀) (settings.depth.getD 8) = some s₀ ∧
        (getWorstMoveC pos settings oracle rand).1 = some (toAIMove m₀) ∧
        (∀ m' ∈ l₁, ∀ s',
          oracle (pos.applyFen m') (settings.depth.getD 8) = some s' → s₀ < s') ∧
        (∀ m' ∈ pos.legalMoves, ∀ s',
          oracle (pos.applyFen m') (settings.depth.getD 8) = some s' → s₀ ≤ s') := by
  have h0 : ¬ pos.legalMoves.length = 0 := by omega
  have h1 : ¬ pos.legalMoves.length = 1 := by omega
  have hcalls := worstLoop_calls
    (fun m => oracle (pos.applyFen m) (settings.depth.getD 8))
    pos.legalMoves ⟨none, none, 0⟩
  rcases worstLoop_spec (fun m => oracle (pos.applyFen m) (settings.depth.getD 8))
      pos.legalMoves ⟨none, none, 0⟩ with
    ⟨hwm, hws, hall⟩ | ⟨l₁, m₀, l₂, s₀, heq, hg0, _, hwm, hws, hearl, hglob⟩
  · have hwm' : (worstLoop (fun m => oracle (pos.applyFen m) (settings.depth.getD 8))
        pos.legalMoves ⟨none, none, 0⟩).worstMove = none := hwm
    constructor
    · simp [getWorstMoveC, h0, h1, hwm', hcalls]
    · intro m hm s hs
      have hfalse := hall m hm s hs
      simp [scoreLt] at hfalse
  · constructor
    · simp [getWorstMoveC, h0, h1, hwm, hcalls]
    · intro m hm s hs
      exact ⟨l₁, m₀, l₂, s₀, heq, hg0,
        by simp [getWorstMoveC, h0, h1, hwm], hearl, hglob⟩

/-- Witness for C1 at the concrete two-move position `twoPos` with the
oracle scoring the successors 5 and 3. -/
theorem claim1_worst_move_minimality_witness :
    (getWorstMoveC twoPos worstfishSettings twoOracle 0).2 =
      twoPos.legalMoves.length ∧
    ∃ l₁ m₀ l₂ s₀, twoPos.legalMoves = l₁ ++ m₀ :: l₂ ∧
      twoOracle (twoPos.applyFen m₀) (worstfishSettings.depth.getD 8) = some s₀ ∧
      (getWorstMoveC twoPos worstfishSettings twoOracle 0).1 = some (toAIMove m₀) ∧
      (∀ m' ∈ l₁, ∀ s',
        twoOracle (twoPos.applyFen m') (worstfishSettings.depth.getD 8) = some s' →
          s₀ < s') ∧
      (∀ m' ∈ twoPos.legalMoves, ∀ s',
        twoOracle (twoPos.applyFen m') (worstfishSettings.depth.getD 8) = some s' →
          s₀ ≤ s') := by
  have h := claim1_worst_move_minimality twoPos worstfishSettings twoOracle 0 (by decide)
  exact ⟨h.1, h.2 ⟨"a1", "a2", none⟩ (by decide) 5 (by decide)⟩

/-- C2 (amended): for every position with a non-empty legal-move list whose
mover's king is on the board, Huddle returns the first legal move (in
enumeration order) minimising the sum, over the mover's pieces after
hypothetically applying the move, of the Chebyshev distance to the mover's
king square *as located once on the pre-move board* (so a king move measures
every distance — including the moved king's own — to the king's original
square, not its new one). -/
theorem claim2_huddle_first_min (pos : Pos) (rand : Nat) (kp : Nat × Nat)
    (hk : findKing pos.board pos.turn = some kp) (hne : pos.legalMoves ≠ []) :
    ∃ l₁ m l₂, pos.legalMoves = l₁ ++ m :: l₂ ∧
      getHuddleMove pos rand = some (toAIMove m) ∧
      (∀ m' ∈ l₁, huddleSum pos kp m < huddleSum pos kp m') ∧
      (∀ m' ∈ pos.legalMoves, huddleSum pos kp m ≤ huddleSum pos kp m') := by
  cases hms : pos.legalMoves with
  | nil => exact absurd hms hne
  | cons m0 rest =>
    rcases selectLoop_spec (huddleSum pos kp) (m0 :: rest) m0 none with
      ⟨h1, h2⟩ | ⟨l₁, mm, l₂, heq, hres, _, hearl, hglob⟩
    · have hm0 := h2 m0 (by simp)
      simp [scoreLt] at hm0
    · refine ⟨l₁, mm, l₂, heq, ?_, hearl, ?_⟩
      · simp [getHuddleMove, hms, hk, hres]
      · intro m' hm'
        exact hglob m' hm'

/-- Witness for the amended C2 at the concrete position `cxPos`
(white Kg2, Pa4 vs black Kg7). -/
theorem claim2_huddle_first_min_witness :
    ∃ l₁ m l₂, cxPos.legalMoves = l₁ ++ m :: l₂ ∧
      getHuddleMove cxPos 0 = some (toAIMove m) ∧
      (∀ m' ∈ l₁, huddleSum cxPos (6, 6) m < huddleSum cxPos (6, 6) m') ∧
      (∀ m' ∈ cxPos.legalMoves, huddleSum cxPos (6, 6) m ≤ huddleSum cxPos (6, 6) m') :=
  claim2_huddle_first_min cxPos 0 (6, 6) (by decide) (by decide)

/-- Counterexample to C2 as stated: in `8/6k1/8/8/P7/8/6K1/8 w - - 0 1` the
source's Huddle returns the pawn push a4–a5, yet under the claim's metric
(distances to the king's *post-move* square) the legal king move g2–f3 sums
strictly lower, so the returned move minimises no post-move-king sum. -/
theorem claim2_counterexample :
    getHuddleMove cxPos 0 = some (toAIMove cxA5) ∧
    cxF3 ∈ cxPos.legalMoves ∧ cxA5 ∈ cxPos.legalMoves ∧
    specHuddleSum cxPos cxF3 < specHuddleSum cxPos cxA5 := by decide

/-- C9: Huddle and Swarm are deterministic — on any position in which the
relevant king is on the board (always the case for a legal chess position;
when it is absent the source falls back to an explicitly random move), the
result does not depend on the random seed, so repeated calls on an identical
position return the identical move. -/
theorem claim9_deterministic (pos : Pos) (r₁ r₂ : Nat) :
    ((findKing pos.board pos.turn).isSome = true →
      getHuddleMove pos r₁ = getHuddleMove pos r₂) ∧
    ((findKing pos.board (oppColor pos.turn)).isSome = true →
      getSwarmMove pos r₁ = getSwarmMove pos r₂) := by
  constructor
  · intro hk
    rcases hke : findKing pos.board pos.turn with _ | kp
    · rw [hke] at hk
      cases hk
    · cases hms : pos.legalMoves with
      | nil => simp [getHuddleMove, hms]
      | cons m0 rest => simp [getHuddleMove, hms, hke]
  · intro hk
    rcases hke : findKing pos.board (oppColor pos.turn) with _ | kp
    · rw [hke] at hk
      cases hk
    · cases hms : pos.legalMoves with
      | nil => simp [getSwarmMove, hms]
      | cons m0 rest => simp [getSwarmMove, hms, hke]

/-- Witness for C9 at `cxPos` (both kings on the board), with two different
random seeds. -/
theorem claim9_deterministic_witness :
    getHuddleMove cxPos 0 = getHuddleMove cxPos 13 ∧
    getSwarmMove cxPos 0 = getSwarmMove cxPos 13 := by
  have h := claim9_deterministic cxPos 0 13
  exact ⟨h.1 (by decide), h.2 (by decide)⟩

/-- C10: every move returned by any of the four selectors is (the `AIMove`
projection of) some element of the legal-move list, and on a non-empty
legal-move list random, huddle and swarm always return a move. -/
theorem claim10_selector_moves_legal (pos : Pos) (settings : AISettings)
    (oracle : String → Nat → Option Int) (rand : Nat) :
    (∀ a, getRandomMove pos rand = some a → ∃ m ∈ pos.legalMoves, a = toAIMove m) ∧
    (∀ a, getHuddleMove pos rand = some a → ∃ m ∈ pos.legalMoves, a = toAIMove m) ∧
    (∀ a, getSwarmMove pos rand = some a → ∃ m ∈ pos.legalMoves, a = toAIMove m) ∧
    (∀ a, getWorstMove pos settings oracle rand = some a →
      ∃ m ∈ pos.legalMoves, a = toAIMove m) ∧
    (pos.legalMoves ≠ [] →
      (getRandomMove pos rand).isSome = true ∧
      (getHuddleMove pos rand).isSome = true ∧
      (getSwarmMove pos rand).isSome = true) := by
  refine ⟨?_, ?_, ?_, ?_, ?_⟩
  · intro a ha
    by_cases h0 : pos.legalMoves.length = 0
    · simp [getRandomMove, h0] at ha
    · simp [getRandomMove, h0] at ha
      exact ⟨_, getElemD_mem _ _ _ (rand_index_lt _ rand h0), ha.symm⟩
  · intro a ha
    cases hms : pos.legalMoves with
    | nil => simp [getHuddleMove, hms] at ha
    | cons m0 rest =>
      rcases hk : findKing pos.board pos.turn with _ | kp
      · simp [getHuddleMove, hms, hk] at ha
        exact ⟨_, getElemD_mem (m0 :: rest) _ _
          (rand_index_lt _ rand (Nat.succ_ne_zero _)), ha.symm⟩
      · simp [getHuddleMove, hms, hk] at ha
        rcases selectLoop_spec (huddleSum pos kp) (m0 :: rest) m0 none with
          ⟨h1, _⟩ | ⟨l₁, mm, l₂, heq, hres, _, _, _⟩
        · rw [h1] at ha
          exact ⟨m0, by simp, ha.symm⟩
        · rw [hres] at ha
          refine ⟨mm, ?_, ha.symm⟩
          rw [heq]
          exact List.mem_append_right _ (List.mem_cons_self _ _)
  · intro a ha
    cases hms : pos.legalMoves with
    | nil => simp [getSwarmMove, hms] at ha
    | cons m0 rest =>
      rcases hk : findKing pos.board (oppColor pos.turn) with _ | kp
      · simp [getSwarmMove, hms, hk] at ha
        exact ⟨_, getElemD_mem (m0 :: rest) _ _
          (rand_index_lt _ rand (Nat.succ_ne_zero _)), ha.symm⟩
      · simp [getSwarmMove, hms, hk] at ha
        rcases selectLoop_spec (swarmSum pos kp) (m0 :: rest) m0 none with
          ⟨h1, _⟩ | ⟨l₁, mm, l₂, heq, hres, _, _, _⟩
        · rw [h1] at ha
          exact ⟨m0, by simp, ha.symm⟩
        · rw [hres] at ha
          refine ⟨mm, ?_, ha.symm⟩
          rw [heq]
          exact List.mem_append_right _ (List.mem_cons_self _ _)
  · intro a ha
    by_cases h0 : pos.legalMoves.length = 0
    · simp [getWorstMove, getWorstMoveC, h0] at ha
    · by_cases h1 : pos.legalMoves.length = 1
      · simp [getWorstMove, getWorstMoveC, h0, h1] at ha
        cases hms : pos.legalMoves with
        | nil => rw [hms] at h0; simp at h0
        | cons m0 rest =>
          rw [hms] at ha
          simp at ha
          exact ⟨m0, by simp, ha.symm⟩
      · rcases worstLoop_spec
          (fun m => oracle (pos.applyFen m) (settings.depth.getD 8))
          pos.legalMoves ⟨none, none, 0⟩ with
          ⟨hwm, _, _⟩ | ⟨l₁, m₀, l₂, s₀, heq, _, _, hwm, _, _, _⟩
        · have hwm' : (worstLoop
              (fun m => oracle (pos.applyFen m) (settings.depth.getD 8))
              pos.legalMoves ⟨none, none, 0⟩).worstMove = none := hwm
          simp [getWorstMove, getWorstMoveC, h0, h1, hwm'] at ha
          exact ⟨_, getElemD_mem _ _ _ (rand_index_lt _ rand h0), ha.symm⟩
        · simp [getWorstMove, getWorstMoveC, h0, h1, hwm] at ha
          refine ⟨m₀, ?_, ha.symm⟩
          rw [heq]
          exact List.mem_append_right _ (List.mem_cons_self _ _)
  · intro hne
    have h0 : pos.legalMoves.length ≠ 0 :=
      fun h => hne (List.length_eq_zero.mp h)
    refine ⟨by simp [getRandomMove, h0], ?_, ?_⟩
    · cases hms : pos.legalMoves with
      | nil => exact absurd hms hne
      | cons m0 rest =>
        rcases hk : findKing pos.board pos.turn with _ | kp
        · simp [getHuddleMove, hms, hk]
        · simp [getHuddleMove, hms, hk]
    · cases hms : pos.legalMoves with
      | nil => exact absurd hms hne
      | cons m0 rest =>
        rcases hk : findKing pos.board (oppColor pos.turn) with _ | kp
        · simp [getSwarmMove, hms, hk]
        · simp [getSwarmMove, hms, hk]

/-- Witness for C10 at `cxPos` (random branch instantiated at seed 0, which
returns a4–a5, plus the non-emptiness conjunct). -/
theorem claim10_selector_moves_legal_witness :
    (∃ m ∈ cxPos.legalMoves, AIMove.mk "a4" "a5" none = toAIMove m) ∧
    (getRandomMove cxPos 0).isSome = true ∧
    (getHuddleMove cxPos 0).isSome = true ∧
    (getSwarmMove cxPos 0).isSome = true := by
  have h := claim10_selector_moves_legal cxPos mediumSettings noOracle 0
  have h5 := h.2.2.2.2 (by decide)
  exact ⟨h.1 ⟨"a4", "a5", none⟩ (by decide), h5.1, h5.2.1, h5.2.2⟩

/-- C3 (amended): for every engine-backed search request the command
sequence is exactly: (a) `UCI_LimitStrength=true` followed by
`UCI_Elo=<rating>` when the limit-strength flag is set and a *nonzero*
target rating is present, else `UCI_LimitStrength=false`; (b) the skill-level
option when a skill level is present, independent of (a); (c) the position;
(d) one `go` command preferring a time budget (milliseconds) over a search
depth, with a node limit appended regardless. -/
theorem claim3_search_commands (fen : String) (s : AISettings) :
    searchCommands fen s = amendedSearchCommands fen s := by
  rcases s with ⟨l, d, t, nd, e, ls, sk⟩
  rcases e with _ | (_ | n) <;> rcases ls with _ | (_ | _) <;>
    rcases sk with _ | k <;> rcases t with _ | t1 <;>
    rcases d with _ | d1 <;> rcases nd with _ | n1 <;> rfl

/-- A settings profile with the limit-strength flag set and a *present but
zero* target rating (JavaScript-falsy). -/
def zeroEloSettings : AISettings := ⟨.custom, none, none, none, some 0, some true, none⟩

/-- Counterexample to C3 as stated: with `limitStrength = true` and the
present rating `0`, the source's truthiness test `settings.limitStrength &&
settings.eloRating` fails, so `UCI_LimitStrength=false` is sent — not the
`UCI_LimitStrength=true` / `UCI_Elo=0` pair the presence-based claim
prescribes. -/
theorem claim3_counterexample :
    searchCommands "rn1qkbnr/8/8/8/8/8/8/RN1QKBNR w KQkq - 0 1" zeroEloSettings ≠
      claimSearchCommands "rn1qkbnr/8/8/8/8/8/8/RN1QKBNR w KQkq - 0 1" zeroEloSettings := by
  decide

/-- C4: one move token is sliced as chars 0–1 = from, chars 2–3 = to,
remainder = promotion; the concrete line `bestmove e7e8q ponder d7d6`
parses to `{from:"e7", to:"e8", promotion:"q"}`; `bestmove (none)` and a
`bestmove` line with no move token both resolve to no move. -/
theorem claim4_parse_bestmove :
    (∀ ms : String, ms ≠ "" → ms ≠ "(none)" →
      parseMoveString ms = some ⟨(ms.toList.take 2).asString,
        ((ms.toList.drop 2).take 2).asString,
        if ms.toList.length > 4 then some ((ms.toList.drop 4).asString) else none⟩) ∧
    parseBestmoveLine "bestmove e7e8q ponder d7d6" = some ⟨"e7", "e8", some "q"⟩ ∧
    parseBestmoveLine "bestmove (none)" = none ∧
    parseBestmoveLine "bestmove" = none := by
  refine ⟨?_, by decide, by decide, by decide⟩
  intro ms h1 h2
  simp [parseMoveString, h1, h2]

/-- Witness for C4's general slicing rule at the token `a2a4`. -/
theorem claim4_parse_bestmove_witness :
    parseMoveString "a2a4" = some ⟨("a2a4".toList.take 2).asString,
      (("a2a4".toList.drop 2).take 2).asString,
      if "a2a4".toList.length > 4 then some (("a2a4".toList.drop 4).asString)
      else none⟩ :=
  claim4_parse_bestmove.1 "a2a4" (by decide) (by decide)

/-- C5 (amended): the evaluation handler resolves with a centipawn score
exactly on an `info` line that contains a `score cp` token with a parsable
score and that contains the *substring* `depth <target>`; because the test
is substring containment (not a parse of the line's reported depth field), a
line whose reported depth is shallower can still resolve when `depth
<target>` occurs elsewhere in it (e.g. inside `seldepth <n>`). -/
theorem claim5_eval_resolve_iff (d : Nat) (msg : String) (s : Int) :
    evalInfoStep d msg = EvalAction.resolveScore s ↔
      (jsStartsWith "info" msg = true ∧ jsIncludes "score cp" msg = true ∧
       findScoreCp msg.toList = some s ∧
       jsIncludes ("depth " ++ toString d) msg = true) := by
  constructor
  · intro h
    by_cases h1 : (jsStartsWith "info" msg && jsIncludes "score cp" msg) = true
    · rcases hf : findScoreCp msg.toList with _ | v
      · have hf2 : findScoreCp msg.data = none := hf
        simp [evalInfoStep, h1, hf2] at h
      · have hf2 : findScoreCp msg.data = some v := hf
        by_cases h2 : jsIncludes ("depth " ++ toString d) msg = true
        · simp only [evalInfoStep, h1, if_true, hf, hf2, h2] at h
          have h1' : jsStartsWith "info" msg = true ∧
              jsIncludes "score cp" msg = true := by simpa using h1
          cases h
          exact ⟨h1'.1, h1'.2, rfl, h2⟩
        · simp [evalInfoStep, h1, hf2, h2] at h
    · simp only [evalInfoStep] at h
      rw [if_neg (by simpa using h1)] at h
      by_cases h3 : jsStartsWith "bestmove" msg = true
      · rw [if_pos h3] at h
        cases h
      · rw [if_neg h3] at h
        cases h
  · rintro ⟨h1, h2, h3, h4⟩
    have h3' : findScoreCp msg.data = some s := h3
    simp [evalInfoStep, h1, h2, h3', h4]

/-- Witness for the amended C5 on a genuine full-depth line. -/
theorem claim5_eval_resolve_iff_witness :
    evalInfoStep 8 "info depth 8 seldepth 11 score cp -42 nodes 999" =
      EvalAction.resolveScore (-42) :=
  (claim5_eval_resolve_iff 8 "info depth 8 seldepth 11 score cp -42 nodes 999"
    (-42)).mpr ⟨by decide, by decide, by decide, by decide⟩

/-- Counterexample to C5 as stated: with target depth 30, the line
`info depth 3 seldepth 30 score cp 50` *reports* depth 3 (shallower than the
target), yet the handler resolves with score 50 because the substring
`depth 30` occurs inside `seldepth 30`. -/
theorem claim5_counterexample :
    evalInfoStep 30 "info depth 3 seldepth 30 score cp 50" =
      EvalAction.resolveScore 50 ∧
    reportedDepth "info depth 3 seldepth 30 score cp 50" = some 3 ∧
    (3 : Nat) < 30 := by
  decide

/-- C6: a search whose event stream contains no `bestmove` line up to the
firing of its (5,000 ms) timer resolves to "no move" with its handler
removed — not an error; an evaluation whose event stream contains no
resolving line up to the firing of its (3,000 ms) timer rejects with the
evaluation-timeout error, with its handler removed. -/
theorem claim6_timeouts :
    (∀ msgs : List String,
      (∀ line ∈ msgs, jsStartsWith "bestmove" line = false) →
      runSearchEvents (msgs.map EngineEvent.msg ++ [EngineEvent.timeout]) =
        some (none, true)) ∧
    searchTimeoutMs = 5000 ∧
    (∀ d : Nat, ∀ msgs : List String,
      (∀ line ∈ msgs, evalInfoStep d line = EvalAction.ignore) →
      runEvalEvents d (msgs.map EngineEvent.msg ++ [EngineEvent.timeout]) =
        some (EvalOutcome.timedOut, true)) ∧
    evalTimeoutMs = 3000 := by
  refine ⟨?_, rfl, ?_, rfl⟩
  · intro msgs h
    induction msgs with
    | nil => rfl
    | cons l rest ih =>
      have hl := h l (by simp)
      simp only [List.map_cons, List.cons_append, runSearchEvents, hl]
      exact ih (fun x hx => h x (by simp [hx]))
  · intro d msgs h
    induction msgs with
    | nil => rfl
    | cons l rest ih =>
      have hl := h l (by simp)
      simp only [List.map_cons, List.cons_append, runEvalEvents, hl]
      exact ih (fun x hx => h x (by simp [hx]))

/-- Witness for C6: a stream holding one non-resolving info line, then the
timer. -/
theorem claim6_timeouts_witness :
    runSearchEvents (["info depth 1 score cp 7"].map EngineEvent.msg ++
      [EngineEvent.timeout]) = some (none, true) ∧
    runEvalEvents 8 (["info depth 1 score cp 7"].map EngineEvent.msg ++
      [EngineEvent.timeout]) = some (EvalOutcome.timedOut, true) :=
  ⟨claim6_timeouts.1 ["info depth 1 score cp 7"] (by decide),
   claim6_timeouts.2.2.1 8 ["info depth 1 score cp 7"] (by decide)⟩

/-- C7 (amended): for every position with no legal moves and every
*heuristic* settings profile (worstfish, random, huddle, swarm), the
dispatcher returns "no move" and sends no command to the engine; for an
engine-backed profile the dispatcher performs the full engine search
regardless of the legal-move list (see `claim7_counterexample`). -/
theorem claim7_empty_dispatch (fen : String) (pos : Pos) (settings : AISettings)
    (oracle : String → Nat → Option Int) (rand : Nat) (events : List EngineEvent)
    (hempty : pos.legalMoves = [])
    (hlevel : settings.level = AILevel.worstfish ∨ settings.level = AILevel.random ∨
      settings.level = AILevel.huddle ∨ settings.level = AILevel.swarm) :
    getBestMoveModel fen pos settings oracle rand events = (some none, []) := by
  rcases hlevel with h | h | h | h
  · simp [getBestMoveModel, h, getWorstMoveC, hempty]
  · simp [getBestMoveModel, h, getRandomMove, hempty]
  · simp [getBestMoveModel, h, getHuddleMove, hempty]
  · simp [getBestMoveModel, h, getSwarmMove, hempty]

/-- Witness for the amended C7: the random profile on a position with no
legal moves. -/
theorem claim7_empty_dispatch_witness :
    getBestMoveModel "8/6k1/8/8/8/8/6K1/8 w - - 0 1" emptyPos randomSettings
      noOracle 0 [] = (some none, []) :=
  claim7_empty_dispatch "8/6k1/8/8/8/8/6K1/8 w - - 0 1" emptyPos randomSettings
    noOracle 0 [] (by decide) (Or.inr (Or.inl rfl))

/-- Counterexample to C7 as stated: on a position with no legal moves but an
engine-backed profile (`medium`), the dispatcher still sends the full
non-empty command sequence to the engine, contradicting "without sending any
command to the engine" for "every settings profile". -/
theorem claim7_counterexample :
    emptyPos.legalMoves = [] ∧
    (getBestMoveModel "8/6k1/8/8/8/8/6K1/8 w - - 0 1" emptyPos mediumSettings
        noOracle 0 [EngineEvent.timeout]).2 =
      searchCommands "8/6k1/8/8/8/8/6K1/8 w - - 0 1" mediumSettings ∧
    searchCommands "8/6k1/8/8/8/8/6K1/8 w - - 0 1" mediumSettings ≠ [] := by
  decide

/-- C8: on a position with exactly one legal move, every selector (random,
huddle, swarm, worst-move) returns that move, and the worst-move selector
performs zero evaluator calls. -/
theorem claim8_single_move (pos : Pos) (settings : AISettings)
    (oracle : String → Nat → Option Int) (rand : Nat) (m : VMove)
    (h : pos.legalMoves = [m]) :
    getRandomMove pos rand = some (toAIMove m) ∧
    getHuddleMove pos rand = some (toAIMove m) ∧
    getSwarmMove pos rand = some (toAIMove m) ∧
    getWorstMoveC pos settings oracle rand = (some (toAIMove m), 0) := by
  refine ⟨?_, ?_, ?_, ?_⟩
  · simp [getRandomMove, h, Nat.mod_one]
  · rcases hk : findKing pos.board pos.turn with _ | kp
    · simp [getHuddleMove, h, hk, Nat.mod_one]
    · simp [getHuddleMove, h, hk, selectLoop, scoreLt]
  · rcases hk : findKing pos.board (oppColor pos.turn) with _ | kp
    · simp [getSwarmMove, h, hk, Nat.mod_one]
    · simp [getSwarmMove, h, hk, selectLoop, scoreLt]
  · simp [getWorstMoveC, h]

/-- Witness for C8 at the one-move position `onePos`. -/
theorem claim8_single_move_witness :
    getRandomMove onePos 7 = some (toAIMove ⟨"e2", "e4", none⟩) ∧
    getHuddleMove onePos 7 = some (toAIMove ⟨"e2", "e4", none⟩) ∧
    getSwarmMove onePos 7 = some (toAIMove ⟨"e2", "e4", none⟩) ∧
    getWorstMoveC onePos worstfishSettings noOracle 7 =
      (some (toAIMove ⟨"e2", "e4", none⟩), 0) :=
  claim8_single_move onePos worstfishSettings noOracle 7 ⟨"e2", "e4", none⟩
    (by decide)

end ChessVariants
